import Mathlib

/-!
Shallow embedding of `src/solutions/python/rna-strand-folding-score.py`.

The Python file defines a single pure function `maxRNAFoldingScore(sequence)`
computing the Nussinov-style maximum number of non-crossing complementary
base pairs by an interval dynamic program, together with a nested helper
`can_pair`.  The DP table entry `dp[i][j]` is embedded here as `best s i j`,
realised by the fuel-indexed structural recursion `bestAux` (the fuel is the
interval gap `j - i`, which strictly decreases along the recurrence).

The Python function performs no input validation; for the empty string it
evaluates `dp[0][n-1]` with `n = 0` on an empty table, which raises an
`IndexError`.  That error path is embedded as `none`; every other input
returns `some` of the DP value, exactly as the source returns `dp[0][n-1]`.
-/

namespace RnaScore

/-- Embedding of the nested helper `can_pair(x, y)` of the source:
two symbols may pair iff they are the ordered letters A/U, U/A, G/C or C/G. -/
def can_pair (x y : Char) : Bool :=
  (x == 'A' && y == 'U') || (x == 'U' && y == 'A') ||
    (x == 'G' && y == 'C') || (x == 'C' && y == 'G')

/-- Fuel-indexed form of the interval DP of the source.  With fuel at least
`j - i`, `bestAux s d i j` is the table entry `dp[i][j]`: the default is
`dp[i+1][j]` (position `i` left unpaired), and for every candidate partner
`k` in `i+1 .. j` with `can_pair sequence[i] sequence[k]` the option
`1 + dp[i+1][k-1] + dp[k+1][j]` is taken into the maximum (subranges that
are empty or inverted contribute `0`, matching the `if k < j` and
`if i + 1 < k` guards of the source).  Out-of-range reads use the dummy
symbol `X`, which pairs with nothing; the top-level call only ever reads
indices `0 .. n-1`, as the source does. -/
def bestAux (s : List Char) : Nat → Nat → Nat → Nat
  | 0, _, _ => 0
  | d + 1, i, j =>
    if j ≤ i then 0
    else
      ((List.range' (i + 1) (j - i)).map (fun k =>
        if can_pair (s.getD i 'X') (s.getD k 'X') then
          1 + bestAux s d (i + 1) (k - 1) + bestAux s d (k + 1) j
        else 0)).foldl max (bestAux s d (i + 1) j)

/-- The DP table of the source: `best s i j` is `dp[i][j]`, the maximum
folding score of the closed subrange `[i, j]` of `s`. -/
def best (s : List Char) (i j : Nat) : Nat :=
  bestAux s (j - i) i j

/-- Embedding of `maxRNAFoldingScore(sequence)`.  For `n = 0` the source
returns `dp[0][n-1]` on the empty table `dp = []`, raising `IndexError`;
that failure is `none`.  Otherwise the result is `dp[0][n-1]`. -/
def maxRNAFoldingScore (s : String) : Option Nat :=
  if s.data.length = 0 then none
  else some (best s.data 0 (s.data.length - 1))

/-! ### Elementary facts about `List.foldl max`, the shape of the inner `for k` loop -/

theorem le_foldl_max (l : List Nat) : ∀ b : Nat, b ≤ l.foldl max b := by
  induction l with
  | nil => intro b; exact le_refl b
  | cons x t ih => intro b; exact le_trans (le_max_left b x) (ih (max b x))

theorem foldl_max_le_of_mem {a : Nat} {l : List Nat} (h : a ∈ l) :
    ∀ b : Nat, a ≤ l.foldl max b := by
  induction l with
  | nil => cases h
  | cons x t ih =>
    intro b
    rcases List.mem_cons.mp h with h1 | h2
    · subst h1; exact le_trans (le_max_right b a) (le_foldl_max t (max b a))
    · exact ih h2 (max b x)

theorem foldl_max_cases (l : List Nat) : ∀ b : Nat, l.foldl max b = b ∨ l.foldl max b ∈ l := by
  induction l with
  | nil => intro b; exact Or.inl rfl
  | cons x t ih =>
    intro b
    rcases ih (max b x) with h | h
    · rcases Nat.le_total x b with hxb | hbx
      · left; rw [List.foldl_cons, h, Nat.max_eq_left hxb]
      · right; rw [List.foldl_cons, h, Nat.max_eq_right hbx]; exact List.mem_cons_self x t
    · right; rw [List.foldl_cons]; exact List.mem_cons_of_mem x h

/-! ### Fuel elimination: `bestAux` is independent of the fuel once it covers the gap -/

theorem bestAux_of_le (s : List Char) (d i j : Nat) (h : j ≤ i) : bestAux s d i j = 0 := by
  cases d with
  | zero => rfl
  | succ d => simp [bestAux, h]

theorem bestAux_stable (s : List Char) :
    ∀ g i j d₁ d₂, j - i ≤ g → j - i ≤ d₁ → j - i ≤ d₂ →
      bestAux s d₁ i j = bestAux s d₂ i j := by
  intro g
  induction g with
  | zero =>
    intro i j d₁ d₂ hg _ _
    have hij : j ≤ i := by omega
    rw [bestAux_of_le s d₁ i j hij, bestAux_of_le s d₂ i j hij]
  | succ g ih =>
    intro i j d₁ d₂ hg h₁ h₂
    by_cases hij : j ≤ i
    · rw [bestAux_of_le s d₁ i j hij, bestAux_of_le s d₂ i j hij]
    · have hij' : i < j := by omega
      obtain ⟨e₁, rfl⟩ : ∃ e, d₁ = e + 1 := ⟨d₁ - 1, by omega⟩
      obtain ⟨e₂, rfl⟩ : ∃ e, d₂ = e + 1 := ⟨d₂ - 1, by omega⟩
      simp only [bestAux, if_neg hij]
      have hbase : bestAux s e₁ (i + 1) j = bestAux s e₂ (i + 1) j :=
        ih (i + 1) j e₁ e₂ (by omega) (by omega) (by omega)
      have hmap :
          (List.range' (i + 1) (j - i)).map (fun k =>
            if can_pair (s.getD i 'X') (s.getD k 'X') then
              1 + bestAux s e₁ (i + 1) (k - 1) + bestAux s e₁ (k + 1) j
            else 0) =
          (List.range' (i + 1) (j - i)).map (fun k =>
            if can_pair (s.getD i 'X') (s.getD k 'X') then
              1 + bestAux s e₂ (i + 1) (k - 1) + bestAux s e₂ (k + 1) j
            else 0) := by
        apply List.map_congr_left
        intro k hk
        rw [List.mem_range'_1] at hk
        have hk1 : i + 1 ≤ k := hk.1
        have hk2 : k ≤ j := by omega
        by_cases hc : can_pair (s.getD i 'X') (s.getD k 'X') = true
        · rw [if_pos hc, if_pos hc,
            ih (i + 1) (k - 1) e₁ e₂ (by omega) (by omega) (by omega),
            ih (k + 1) j e₁ e₂ (by omega) (by omega) (by omega)]
        · rw [if_neg hc, if_neg hc]
      rw [hmap, hbase]

theorem bestAux_eq_best (s : List Char) (d i j : Nat) (h : j - i ≤ d) :
    bestAux s d i j = best s i j :=
  bestAux_stable s (j - i) i j d (j - i) (le_refl _) h (le_refl _)

theorem best_of_le (s : List Char) (i j : Nat) (h : j ≤ i) : best s i j = 0 :=
  bestAux_of_le s (j - i) i j h

/-- The recurrence of the source's DP loop, phrased on `best` itself. -/
theorem best_rec (s : List Char) (i j : Nat) (h : i < j) :
    best s i j =
      ((List.range' (i + 1) (j - i)).map (fun k =>
        if can_pair (s.getD i 'X') (s.getD k 'X') then
          1 + best s (i + 1) (k - 1) + best s (k + 1) j
        else 0)).foldl max (best s (i + 1) j) := by
  obtain ⟨e, he⟩ : ∃ e, j - i = e + 1 := ⟨j - i - 1, by omega⟩
  have hne : ¬ j ≤ i := by omega
  have hbase : bestAux s e (i + 1) j = best s (i + 1) j :=
    bestAux_eq_best s e (i + 1) j (by omega)
  have hmap :
      (List.range' (i + 1) (e + 1)).map (fun k =>
        if can_pair (s.getD i 'X') (s.getD k 'X') then
          1 + bestAux s e (i + 1) (k - 1) + bestAux s e (k + 1) j
        else 0) =
      (List.range' (i + 1) (e + 1)).map (fun k =>
        if can_pair (s.getD i 'X') (s.getD k 'X') then
          1 + best s (i + 1) (k - 1) + best s (k + 1) j
        else 0) := by
    apply List.map_congr_left
    intro k hk
    rw [List.mem_range'_1] at hk
    have hk1 : i + 1 ≤ k := hk.1
    have hk2 : k ≤ j := by omega
    by_cases hc : can_pair (s.getD i 'X') (s.getD k 'X') = true
    · rw [if_pos hc, if_pos hc, bestAux_eq_best s e (i + 1) (k - 1) (by omega),
        bestAux_eq_best s e (k + 1) j (by omega)]
    · rw [if_neg hc, if_neg hc]
  show bestAux s (j - i) i j = _
  rw [he]
  simp only [bestAux, if_neg hne]
  rw [he, hmap, hbase]

/-! ### Valid pairing sets (the spec's data model for the score) -/

/-- Two pairings cross when they interleave: `i < k < j < l` for `(i,j)`, `(k,l)`
in either order. -/
def crossing (p q : Nat × Nat) : Prop :=
  (p.1 < q.1 ∧ q.1 < p.2 ∧ p.2 < q.2) ∨ (q.1 < p.1 ∧ p.1 < q.2 ∧ q.2 < p.2)

/-- Two pairings use four pairwise distinct positions (no position belongs to
more than one pairing). -/
def sepPairs (p q : Nat × Nat) : Prop :=
  p.1 ≠ q.1 ∧ p.1 ≠ q.2 ∧ p.2 ≠ q.1 ∧ p.2 ≠ q.2

/-- A single pairing is admissible for sequence `s`: ordered, in range, and
joining complementary symbols in the sense of the source's `can_pair`. -/
def pairOk (s : List Char) (p : Nat × Nat) : Prop :=
  p.1 < p.2 ∧ p.2 < s.length ∧ can_pair (s.getD p.1 'X') (s.getD p.2 'X') = true

/-- Two pairings may coexist in one pairing set: disjoint positions and
no crossing. -/
def compatible (p q : Nat × Nat) : Prop :=
  sepPairs p q ∧ ¬ crossing p q

/-- A valid pairing set over `s`, represented as a list of pairings: every
member is admissible and the members are pairwise compatible.  Its score is
its length (pairwise position-disjointness makes the list duplicate-free). -/
def ValidPairing (s : List Char) (P : List (Nat × Nat)) : Prop :=
  (∀ p ∈ P, pairOk s p) ∧ P.Pairwise compatible

/-- All pairings of `P` live inside the closed position range `[i, j]`. -/
def InRange (i j : Nat) (P : List (Nat × Nat)) : Prop :=
  ∀ p ∈ P, i ≤ p.1 ∧ p.2 ≤ j

theorem compatible_symm {p q : Nat × Nat} (h : compatible p q) : compatible q p := by
  obtain ⟨⟨s1, s2, s3, s4⟩, hcr⟩ := h
  exact ⟨⟨s1.symm, s3.symm, s2.symm, s4.symm⟩, fun hx => hcr (Or.symm hx)⟩

theorem validPairing_sublist {s : List Char} {P Q : List (Nat × Nat)}
    (h : ValidPairing s P) (hsub : Q.Sublist P) : ValidPairing s Q :=
  ⟨fun p hp => h.1 p (hsub.subset hp), List.Pairwise.sublist hsub h.2⟩

theorem validPairing_perm {s : List Char} {P Q : List (Nat × Nat)}
    (h : ValidPairing s P) (hp : P.Perm Q) : ValidPairing s Q :=
  ⟨fun p hq => h.1 p (hp.mem_iff.mpr hq),
    (List.Perm.pairwise_iff (fun hxy => compatible_symm hxy) hp).mp h.2⟩

/-! ### The dummy symbol pairs with nothing, so `can_pair` forces in-range reads -/

theorem can_pair_dummy_left (y : Char) : can_pair 'X' y = false := by
  have h1 : ('X' == 'A') = false := by decide
  have h2 : ('X' == 'U') = false := by decide
  have h3 : ('X' == 'G') = false := by decide
  have h4 : ('X' == 'C') = false := by decide
  simp [can_pair, h1, h2, h3, h4]

theorem can_pair_dummy_right (x : Char) : can_pair x 'X' = false := by
  have h1 : ('X' == 'U') = false := by decide
  have h2 : ('X' == 'A') = false := by decide
  have h3 : ('X' == 'C') = false := by decide
  have h4 : ('X' == 'G') = false := by decide
  simp [can_pair, h1, h2, h3, h4]

theorem lt_length_of_can_pair {s : List Char} {a b : Nat}
    (h : can_pair (s.getD a 'X') (s.getD b 'X') = true) :
    a < s.length ∧ b < s.length := by
  constructor
  · by_contra hn
    have ha : s.getD a 'X' = 'X' := List.getD_eq_default s 'X' (by omega)
    rw [ha, can_pair_dummy_left] at h
    cases h
  · by_contra hn
    have hb : s.getD b 'X' = 'X' := List.getD_eq_default s 'X' (by omega)
    rw [hb, can_pair_dummy_right] at h
    cases h

/-! ### Auxiliary list bookkeeping -/

theorem length_filter_split {α : Type} (f : α → Bool) (l : List α) :
    l.length = (l.filter f).length + (l.filter (fun a => ! f a)).length := by
  induction l with
  | nil => rfl
  | cons x t ih =>
    cases hfx : f x <;>
      simp [List.filter_cons, hfx, List.length_cons, ih] <;> omega

theorem eq_nil_of_inverted {s : List Char} {P : List (Nat × Nat)} {i j : Nat}
    (hij : j ≤ i) (hv : ValidPairing s P) (hr : InRange i j P) : P = [] := by
  cases P with
  | nil => rfl
  | cons p Q =>
    exfalso
    have h1 := (hv.1 p (List.mem_cons_self p Q)).1
    have h2 := hr p (List.mem_cons_self p Q)
    omega

/-- Completeness of the DP: no valid pairing set inside `[i, j]` beats the
table entry `best s i j`.  The induction follows the Nussinov argument: if
position `i` is unpaired the set lives in `[i+1, j]`; if `i` is paired to `k`,
non-crossing splits the remaining pairings into `[i+1, k-1]` and `[k+1, j]`. -/
theorem pairing_length_le_best (s : List Char) :
    ∀ g i j P, j - i ≤ g → ValidPairing s P → InRange i j P →
      P.length ≤ best s i j := by
  intro g
  induction g with
  | zero =>
    intro i j P hg hv hr
    rw [eq_nil_of_inverted (by omega) hv hr]
    exact Nat.zero_le _
  | succ g ih =>
    intro i j P hg hv hr
    by_cases hij : j ≤ i
    · rw [eq_nil_of_inverted hij hv hr]
      exact Nat.zero_le _
    have hij' : i < j := by omega
    by_cases hi : ∃ p ∈ P, p.1 = i
    · obtain ⟨p₀, hp₀, hp₀1⟩ := hi
      obtain ⟨a, k⟩ := p₀
      have ha : a = i := hp₀1
      subst ha
      obtain ⟨l₁, l₂, rfl⟩ := List.append_of_mem hp₀
      have hperm : (l₁ ++ (a, k) :: l₂).Perm ((a, k) :: (l₁ ++ l₂)) := List.perm_middle
      have hv' : ValidPairing s ((a, k) :: (l₁ ++ l₂)) := validPairing_perm hv hperm
      have hr' : InRange a j ((a, k) :: (l₁ ++ l₂)) :=
        fun p hp => hr p (hperm.mem_iff.mpr hp)
      have hpk : pairOk s (a, k) := hv'.1 (a, k) (List.mem_cons_self _ _)
      have hik : a < k := hpk.1
      have hkj : k ≤ j := (hr' (a, k) (List.mem_cons_self _ _)).2
      have hcomp : ∀ q ∈ l₁ ++ l₂, compatible (a, k) q :=
        (List.pairwise_cons.mp hv'.2).1
      have hvQ : ValidPairing s (l₁ ++ l₂) :=
        ⟨fun p hp => hv'.1 p (List.mem_cons_of_mem _ hp),
          (List.pairwise_cons.mp hv'.2).2⟩
      have hrQ : InRange a j (l₁ ++ l₂) :=
        fun p hp => hr' p (List.mem_cons_of_mem _ hp)
      have hsplit : ∀ q ∈ l₁ ++ l₂,
          (a + 1 ≤ q.1 ∧ q.2 + 1 ≤ k) ∨ (k + 1 ≤ q.1 ∧ q.2 ≤ j) := by
        intro q hq
        obtain ⟨⟨s1, s2, s3, s4⟩, hcr⟩ := hcomp q hq
        have s1' : a ≠ q.1 := s1
        have s3' : k ≠ q.1 := s3
        have s4' : k ≠ q.2 := s4
        have hcrL : ¬ (a < q.1 ∧ q.1 < k ∧ k < q.2) := fun hx => hcr (Or.inl hx)
        have hq1 : q.1 < q.2 := (hvQ.1 q hq).1
        have hqr := hrQ q hq
        by_cases hcase : q.2 < k
        · left; omega
        · right
          refine ⟨?_, hqr.2⟩
          by_contra hlt
          exact hcrL ⟨by omega, by omega, by omega⟩
      set Q₁ := (l₁ ++ l₂).filter (fun q => decide (q.2 < k)) with hQ₁
      set Q₂ := (l₁ ++ l₂).filter (fun q => ! decide (q.2 < k)) with hQ₂
      have hlen : (l₁ ++ l₂).length = Q₁.length + Q₂.length :=
        length_filter_split _ _
      have hv₁ : ValidPairing s Q₁ := validPairing_sublist hvQ (List.filter_sublist _)
      have hv₂ : ValidPairing s Q₂ := validPairing_sublist hvQ (List.filter_sublist _)
      have hr₁ : InRange (a + 1) (k - 1) Q₁ := by
        intro q hq
        rw [hQ₁, List.mem_filter] at hq
        obtain ⟨hqm, hqd⟩ := hq
        have hqk : q.2 < k := of_decide_eq_true hqd
        rcases hsplit q hqm with ⟨h1, h2⟩ | ⟨h1, h2⟩
        · exact ⟨h1, by omega⟩
        · exfalso
          have := (hvQ.1 q hqm).1
          omega
      have hr₂ : InRange (k + 1) j Q₂ := by
        intro q hq
        rw [hQ₂, List.mem_filter] at hq
        obtain ⟨hqm, hqd⟩ := hq
        have hqk : ¬ q.2 < k := by
          intro hx
          rw [decide_eq_true hx] at hqd
          cases hqd
        rcases hsplit q hqm with ⟨h1, h2⟩ | ⟨h1, h2⟩
        · exfalso; omega
        · exact ⟨h1, h2⟩
      have ih₁ : Q₁.length ≤ best s (a + 1) (k - 1) :=
        ih (a + 1) (k - 1) Q₁ (by omega) hv₁ hr₁
      have ih₂ : Q₂.length ≤ best s (k + 1) j :=
        ih (k + 1) j Q₂ (by omega) hv₂ hr₂
      have hcan : can_pair (s.getD a 'X') (s.getD k 'X') = true := hpk.2.2
      have hmem : 1 + best s (a + 1) (k - 1) + best s (k + 1) j ∈
          (List.range' (a + 1) (j - a)).map (fun x =>
            if can_pair (s.getD a 'X') (s.getD x 'X') then
              1 + best s (a + 1) (x - 1) + best s (x + 1) j
            else 0) := by
        apply List.mem_map.mpr
        refine ⟨k, ?_, ?_⟩
        · rw [List.mem_range'_1]
          omega
        · rw [if_pos hcan]
      have hle : 1 + best s (a + 1) (k - 1) + best s (k + 1) j ≤ best s a j := by
        rw [best_rec s a j hij']
        exact foldl_max_le_of_mem hmem _
      have hPlen : (l₁ ++ (a, k) :: l₂).length = (l₁ ++ l₂).length + 1 := by
        rw [hperm.length_eq]
        rfl
      omega
    · have hr'' : InRange (i + 1) j P := by
        intro p hp
        have h1 := hr p hp
        have h3 : p.1 ≠ i := fun he => hi ⟨p, hp, he⟩
        exact ⟨by omega, h1.2⟩
      have hih := ih (i + 1) j P (by omega) hv hr''
      have hb : best s (i + 1) j ≤ best s i j := by
        rw [best_rec s i j hij']
        exact le_foldl_max _ _
      omega

/-- Soundness of the DP: `best s i j` is attained by some valid pairing set
inside `[i, j]`, built by following the recurrence's maximising branch. -/
theorem exists_pairing_of_best (s : List Char) :
    ∀ g i j, j - i ≤ g →
      ∃ P, ValidPairing s P ∧ InRange i j P ∧ P.length = best s i j := by
  intro g
  induction g with
  | zero =>
    intro i j hg
    refine ⟨[], ⟨fun p hp => absurd hp (List.not_mem_nil p), List.Pairwise.nil⟩,
      fun p hp => absurd hp (List.not_mem_nil p), ?_⟩
    rw [best_of_le s i j (by omega)]
    rfl
  | succ g ih =>
    intro i j hg
    by_cases hij : j ≤ i
    · refine ⟨[], ⟨fun p hp => absurd hp (List.not_mem_nil p), List.Pairwise.nil⟩,
        fun p hp => absurd hp (List.not_mem_nil p), ?_⟩
      rw [best_of_le s i j hij]
      rfl
    have hij' : i < j := by omega
    rw [best_rec s i j hij']
    rcases foldl_max_cases
        ((List.range' (i + 1) (j - i)).map (fun k =>
          if can_pair (s.getD i 'X') (s.getD k 'X') then
            1 + best s (i + 1) (k - 1) + best s (k + 1) j
          else 0)) (best s (i + 1) j) with hcase | hcase
    · rw [hcase]
      obtain ⟨P, hv, hrange, hl⟩ := ih (i + 1) j (by omega)
      refine ⟨P, hv, ?_, hl⟩
      intro p hp
      have := hrange p hp
      exact ⟨by omega, this.2⟩
    · rcases List.mem_map.mp hcase with ⟨k, hk, hfk⟩
      rw [List.mem_range'_1] at hk
      have hk1 : i + 1 ≤ k := hk.1
      have hk2 : k ≤ j := by omega
      by_cases hc : can_pair (s.getD i 'X') (s.getD k 'X') = true
      · rw [if_pos hc] at hfk
        obtain ⟨P₁, hv₁, hr₁, hl₁⟩ := ih (i + 1) (k - 1) (by omega)
        obtain ⟨P₂, hv₂, hr₂, hl₂⟩ := ih (k + 1) j (by omega)
        have hkl : k < s.length := (lt_length_of_can_pair hc).2
        refine ⟨(i, k) :: (P₁ ++ P₂), ⟨?_, ?_⟩, ?_, ?_⟩
        · intro p hp
          rcases List.mem_cons.mp hp with hp | hp
          · subst hp
            exact ⟨by omega, hkl, hc⟩
          · rcases List.mem_append.mp hp with hp | hp
            · exact hv₁.1 p hp
            · exact hv₂.1 p hp
        · rw [List.pairwise_cons]
          constructor
          · intro q hq
            rcases List.mem_append.mp hq with hq | hq
            · have hrq := hr₁ q hq
              have hoq := (hv₁.1 q hq).1
              refine ⟨⟨by omega, by omega, by omega, by omega⟩, ?_⟩
              intro hcr
              rcases hcr with ⟨h1, h2, h3⟩ | ⟨h1, h2, h3⟩ <;>
                [skip; skip] <;> dsimp only at h1 h2 h3 <;> omega
            · have hrq := hr₂ q hq
              have hoq := (hv₂.1 q hq).1
              refine ⟨⟨by omega, by omega, by omega, by omega⟩, ?_⟩
              intro hcr
              rcases hcr with ⟨h1, h2, h3⟩ | ⟨h1, h2, h3⟩ <;>
                [skip; skip] <;> dsimp only at h1 h2 h3 <;> omega
          · rw [List.pairwise_append]
            refine ⟨hv₁.2, hv₂.2, ?_⟩
            intro p hp q hq
            have hrp := hr₁ p hp
            have hrq := hr₂ q hq
            have hop := (hv₁.1 p hp).1
            have hoq := (hv₂.1 q hq).1
            refine ⟨⟨by omega, by omega, by omega, by omega⟩, ?_⟩
            intro hcr
            rcases hcr with ⟨h1, h2, h3⟩ | ⟨h1, h2, h3⟩ <;> omega
        · intro p hp
          rcases List.mem_cons.mp hp with hp | hp
          · subst hp
            exact ⟨le_refl i, hk2⟩
          · rcases List.mem_append.mp hp with hp | hp
            · have := hr₁ p hp
              exact ⟨by omega, by omega⟩
            · have := hr₂ p hp
              exact ⟨by omega, by omega⟩
        · rw [← hfk, List.length_cons, List.length_append, hl₁, hl₂]
          omega
      · rw [if_neg hc] at hfk
        refine ⟨[], ⟨fun p hp => absurd hp (List.not_mem_nil p), List.Pairwise.nil⟩,
          fun p hp => absurd hp (List.not_mem_nil p), ?_⟩
        rw [← hfk]
        rfl

/-! ### Each pairing consumes two distinct positions, so a score is at most half the length -/

/-- The flattened list of positions used by a pairing set. -/
def endpoints : List (Nat × Nat) → List Nat
  | [] => []
  | p :: Q => p.1 :: p.2 :: endpoints Q

theorem mem_endpoints {x : Nat} :
    ∀ {P : List (Nat × Nat)}, x ∈ endpoints P ↔ ∃ p ∈ P, x = p.1 ∨ x = p.2 := by
  intro P
  induction P with
  | nil =>
    simp [endpoints]
  | cons p Q ih =>
    simp only [endpoints, List.mem_cons, ih]
    constructor
    · rintro (h | h | ⟨q, hq, hx⟩)
      · exact ⟨p, Or.inl rfl, Or.inl h⟩
      · exact ⟨p, Or.inl rfl, Or.inr h⟩
      · exact ⟨q, Or.inr hq, hx⟩
    · rintro ⟨q, hq | hq, hx⟩
      · subst hq
        rcases hx with hx | hx
        · exact Or.inl hx
        · exact Or.inr (Or.inl hx)
      · exact Or.inr (Or.inr ⟨q, hq, hx⟩)

theorem length_endpoints : ∀ P : List (Nat × Nat), (endpoints P).length = 2 * P.length := by
  intro P
  induction P with
  | nil => rfl
  | cons p Q ih =>
    simp only [endpoints, List.length_cons, ih]
    omega

theorem endpoints_nodup {s : List Char} :
    ∀ {P : List (Nat × Nat)}, ValidPairing s P → (endpoints P).Nodup := by
  intro P
  induction P with
  | nil => exact fun _ => List.nodup_nil
  | cons p Q ih =>
    intro hv
    have hok : pairOk s p := hv.1 p (List.mem_cons_self _ _)
    have hcomp : ∀ q ∈ Q, compatible p q := (List.pairwise_cons.mp hv.2).1
    have hvQ : ValidPairing s Q :=
      ⟨fun q hq => hv.1 q (List.mem_cons_of_mem _ hq), (List.pairwise_cons.mp hv.2).2⟩
    have h1 : p.1 ∉ endpoints Q := by
      intro hx
      obtain ⟨q, hq, hx⟩ := mem_endpoints.mp hx
      obtain ⟨⟨s1, s2, s3, s4⟩, _⟩ := hcomp q hq
      rcases hx with hx | hx
      · exact s1 hx
      · exact s2 hx
    have h2 : p.2 ∉ endpoints Q := by
      intro hx
      obtain ⟨q, hq, hx⟩ := mem_endpoints.mp hx
      obtain ⟨⟨s1, s2, s3, s4⟩, _⟩ := hcomp q hq
      rcases hx with hx | hx
      · exact s3 hx
      · exact s4 hx
    have h12 : p.1 ≠ p.2 := by
      have := hok.1
      omega
    simp only [endpoints, List.nodup_cons, List.mem_cons]
    exact ⟨fun h => by rcases h with h | h; exact h12 h; exact h1 h, h2, ih hvQ⟩

theorem endpoints_lt {s : List Char} {P : List (Nat × Nat)} (hv : ValidPairing s P) :
    ∀ x ∈ endpoints P, x < s.length := by
  intro x hx
  obtain ⟨q, hq, hx⟩ := mem_endpoints.mp hx
  obtain ⟨h1, h2, _⟩ := hv.1 q hq
  rcases hx with hx | hx <;> subst hx <;> omega

/-- Each pairing consumes two distinct positions, so a valid pairing set has
at most `floor (n / 2)` pairings. -/
theorem valid_length_le_half {s : List Char} {P : List (Nat × Nat)}
    (hv : ValidPairing s P) : P.length ≤ s.length / 2 := by
  have hnd : (endpoints P).Nodup := endpoints_nodup hv
  have hsub : (endpoints P).toFinset ⊆ Finset.range s.length := by
    intro x hx
    rw [Finset.mem_range]
    exact endpoints_lt hv x (List.mem_toFinset.mp hx)
  have hcard : (endpoints P).toFinset.card = 2 * P.length := by
    rw [List.toFinset_card_of_nodup hnd, length_endpoints]
  have h2 : 2 * P.length ≤ s.length := by
    have := Finset.card_le_card hsub
    rw [hcard, Finset.card_range] at this
    exact this
  rw [Nat.le_div_iff_mul_le (by omega)]
  omega

/-! ### Remaining helper lemmas used by the claim theorems -/

theorem maxRNAFoldingScore_eq_some {s : String} (h : s.data.length ≠ 0) :
    maxRNAFoldingScore s = some (best s.data 0 (s.data.length - 1)) := by
  unfold maxRNAFoldingScore
  rw [if_neg h]

theorem maxRNAFoldingScore_eq_none {s : String} (h : s.data.length = 0) :
    maxRNAFoldingScore s = none := by
  unfold maxRNAFoldingScore
  rw [if_pos h]

theorem can_pair_false_of_not_mem {x : Char}
    (hx : x ∉ (['A', 'U', 'G', 'C'] : List Char)) (y : Char) :
    can_pair x y = false ∧ can_pair y x = false := by
  simp only [List.mem_cons, List.not_mem_nil, or_false] at hx
  push_neg at hx
  obtain ⟨hA, hU, hG, hC⟩ := hx
  have bA : (x == 'A') = false := beq_eq_false_iff_ne.mpr hA
  have bU : (x == 'U') = false := beq_eq_false_iff_ne.mpr hU
  have bG : (x == 'G') = false := beq_eq_false_iff_ne.mpr hG
  have bC : (x == 'C') = false := beq_eq_false_iff_ne.mpr hC
  constructor <;> simp [can_pair, bA, bU, bG, bC]

/-- State-passing embedding of one invocation of the scorer.  The Python
function allocates only local scratch (the `dp` table and the nested
`can_pair` helper) and neither reads nor writes anything global, so its
action on an arbitrary ambient state is the identity, and the returned
score depends on the argument alone. -/
def foldingScorerCall {σ : Type} (world : σ) (s : String) : Option Nat × σ :=
  (maxRNAFoldingScore s, world)

/-! ### The claims -/

/-- Claim C1, counterexample to the claim as stated: the empty string is a
sequence over {A, U, G, C}, its maximum valid-pairing cardinality exists and
is 0 (attained by the empty pairing set), yet `maxRNAFoldingScore` returns
no score on it: the source evaluates `dp[0][n-1]` on the empty table `dp`
and fails with `IndexError`. -/
theorem claim1_counterexample :
    maxRNAFoldingScore "" = none ∧ ValidPairing "".data [] ∧
      ∀ P, ValidPairing "".data P → P.length ≤ 0 := by
  refine ⟨rfl, ⟨fun p hp => absurd hp (List.not_mem_nil p), List.Pairwise.nil⟩, ?_⟩
  intro P hv
  cases P with
  | nil => exact le_refl 0
  | cons p Q =>
    exfalso
    have h2 : p.2 < "".data.length := (hv.1 p (List.mem_cons_self p Q)).2.1
    have h0 : "".data.length = 0 := rfl
    omega

/-- Claim C1 (amended to nonempty sequences): for every nonempty sequence
over {A, U, G, C}, `maxRNAFoldingScore` returns `some m` where `m` is the
maximum cardinality over all valid pairing sets — `m` is attained by some
valid pairing set, and no valid pairing set is larger.  (On the empty
sequence the source fails instead of returning the maximum, 0.) -/
theorem claim1_max_score (s : String)
    (halpha : ∀ c ∈ s.data, c ∈ (['A', 'U', 'G', 'C'] : List Char))
    (hne : s.data ≠ []) :
    ∃ m, maxRNAFoldingScore s = some m ∧
      (∃ P, ValidPairing s.data P ∧ P.length = m) ∧
      (∀ P, ValidPairing s.data P → P.length ≤ m) := by
  have hn : s.data.length ≠ 0 := fun h => hne (List.length_eq_zero.mp h)
  refine ⟨best s.data 0 (s.data.length - 1), maxRNAFoldingScore_eq_some hn, ?_, ?_⟩
  · obtain ⟨P, hv, hrange, hl⟩ :=
      exists_pairing_of_best s.data (s.data.length - 1) 0 (s.data.length - 1) (by omega)
    exact ⟨P, hv, hl⟩
  · intro P hv
    apply pairing_length_le_best s.data (s.data.length - 1) 0 (s.data.length - 1) P
      (by omega) hv
    intro p hp
    obtain ⟨h1, h2, _⟩ := hv.1 p hp
    exact ⟨Nat.zero_le _, by omega⟩

/-- Witness for the amended claim C1, at the concrete input "GC". -/
theorem claim1_witness :
    ∃ m, maxRNAFoldingScore "GC" = some m ∧
      (∃ P, ValidPairing "GC".data P ∧ P.length = m) ∧
      (∀ P, ValidPairing "GC".data P → P.length ≤ m) :=
  claim1_max_score "GC" (by decide) (by decide)

/-- Claim C2, counterexample: "AXU" contains a symbol outside {A, U, G, C},
yet `maxRNAFoldingScore` returns the score 1 (A at position 0 pairs with U
at position 2) instead of failing with an InvalidInput error. -/
theorem claim2_counterexample : maxRNAFoldingScore "AXU" = some 1 := by rfl

/-- Claim C2 (amended): the source performs no alphabet validation — on every
sequence containing a symbol outside {A, U, G, C} it still returns a score,
treating the foreign symbols as unpairable; in particular "AXU" returns 1. -/
theorem claim2_no_reject :
    (∀ s : String, (∃ c ∈ s.data, c ∉ (['A', 'U', 'G', 'C'] : List Char)) →
      ∃ m, maxRNAFoldingScore s = some m) ∧
    maxRNAFoldingScore "AXU" = some 1 := by
  constructor
  · intro s h
    obtain ⟨c, hc, _⟩ := h
    have hn : s.data.length ≠ 0 := by
      have := List.length_pos_of_mem hc
      omega
    exact ⟨_, maxRNAFoldingScore_eq_some hn⟩
  · rfl

/-- Witness for the amended claim C2, at the concrete input "AXU". -/
theorem claim2_witness : ∃ m, maxRNAFoldingScore "AXU" = some m :=
  claim2_no_reject.1 "AXU" (by decide)

/-- Claim C3: the spec requires score 0 for every sequence of length 0 or 1.
The source does return 0 on each single-symbol sequence of the alphabet, but
on the empty string it evaluates `dp[0][n-1]` on the empty table and fails
with `IndexError` (embedded as `none`) instead of returning 0. -/
theorem claim3_short_sequences :
    maxRNAFoldingScore "" = none ∧
    maxRNAFoldingScore "A" = some 0 ∧ maxRNAFoldingScore "U" = some 0 ∧
    maxRNAFoldingScore "G" = some 0 ∧ maxRNAFoldingScore "C" = some 0 :=
  ⟨rfl, rfl, rfl, rfl, rfl⟩

/-- Claim C4: the seven literal non-empty scenarios of the spec, reproduced
exactly by the source. -/
theorem claim4_literal_scenarios :
    maxRNAFoldingScore "AC" = some 0 ∧
    maxRNAFoldingScore "AUUGC" = some 2 ∧
    maxRNAFoldingScore "AAUU" = some 2 ∧
    maxRNAFoldingScore "AUGCAU" = some 3 ∧
    maxRNAFoldingScore "GGGGCCCC" = some 4 ∧
    maxRNAFoldingScore "AUGU" = some 1 ∧
    maxRNAFoldingScore "GCAUGCAU" = some 4 :=
  ⟨rfl, rfl, rfl, rfl, rfl, rfl, rfl⟩

/-- Claim C5: "GCAU" scores 2 — the disjoint pairings G-C at (0,1) and A-U
at (2,3) do not cross — as the spec's recurrence dictates and the source
computes, despite the conflicting example `GCAU → 1` embedded in the
source's docstring. -/
theorem claim5_gcau : maxRNAFoldingScore "GCAU" = some 2 := by rfl

/-- Claim C6: every score the source returns for a sequence of length `n`
over {A, U, G, C} is a natural number (hence non-negative) of at most
`n / 2` (each pairing consumes two distinct positions). -/
theorem claim6_half_bound (s : String)
    (halpha : ∀ c ∈ s.data, c ∈ (['A', 'U', 'G', 'C'] : List Char))
    (m : Nat) (hm : maxRNAFoldingScore s = some m) : m ≤ s.data.length / 2 := by
  by_cases hn : s.data.length = 0
  · exfalso
    rw [maxRNAFoldingScore_eq_none hn] at hm
    cases hm
  · rw [maxRNAFoldingScore_eq_some hn] at hm
    have hm' : m = best s.data 0 (s.data.length - 1) := (Option.some.inj hm).symm
    obtain ⟨P, hv, hrange, hl⟩ :=
      exists_pairing_of_best s.data (s.data.length - 1) 0 (s.data.length - 1) (by omega)
    have := valid_length_le_half hv
    omega

/-- Witness for claim C6, at the concrete input "AUAU" with score 2. -/
theorem claim6_witness :
    maxRNAFoldingScore "AUAU" = some 2 ∧ (2 : Nat) ≤ "AUAU".data.length / 2 :=
  ⟨by rfl, claim6_half_bound "AUAU" (by decide) 2 (by rfl)⟩

/-- Claim C7: appending a symbol never decreases the optimum — whenever the
scorer returns `a` on `s` and `b` on `s` extended by one symbol `c` of the
alphabet, `a ≤ b` (every valid pairing set of the prefix is one of the
extension). -/
theorem claim7_push_mono (s : String) (c : Char)
    (halpha : ∀ d ∈ s.data, d ∈ (['A', 'U', 'G', 'C'] : List Char))
    (hc : c ∈ (['A', 'U', 'G', 'C'] : List Char))
    (a b : Nat) (ha : maxRNAFoldingScore s = some a)
    (hb : maxRNAFoldingScore (s.push c) = some b) : a ≤ b := by
  by_cases hn : s.data.length = 0
  · exfalso
    rw [maxRNAFoldingScore_eq_none hn] at ha
    cases ha
  have hpd : (s.push c).data = s.data ++ [c] := String.data_push s c
  have hn' : (s.push c).data.length ≠ 0 := by
    rw [hpd, List.length_append, List.length_singleton]
    omega
  rw [maxRNAFoldingScore_eq_some hn] at ha
  rw [maxRNAFoldingScore_eq_some hn'] at hb
  have ha' : a = best s.data 0 (s.data.length - 1) := (Option.some.inj ha).symm
  have hb' : b = best (s.push c).data 0 ((s.push c).data.length - 1) :=
    (Option.some.inj hb).symm
  obtain ⟨P, hv, hrange, hl⟩ :=
    exists_pairing_of_best s.data (s.data.length - 1) 0 (s.data.length - 1) (by omega)
  have hv' : ValidPairing ((s.push c).data) P := by
    rw [hpd]
    refine ⟨?_, hv.2⟩
    intro p hp
    obtain ⟨h1, h2, h3⟩ := hv.1 p hp
    refine ⟨h1, ?_, ?_⟩
    · rw [List.length_append, List.length_singleton]
      omega
    · have g1 : (s.data ++ [c]).getD p.1 'X' = s.data.getD p.1 'X' :=
        List.getD_append s.data [c] 'X' p.1 (by omega)
      have g2 : (s.data ++ [c]).getD p.2 'X' = s.data.getD p.2 'X' :=
        List.getD_append s.data [c] 'X' p.2 h2
      rw [g1, g2]
      exact h3
  have hr' : InRange 0 ((s.push c).data.length - 1) P := by
    intro p hp
    obtain ⟨h1, h2, _⟩ := hv.1 p hp
    refine ⟨Nat.zero_le _, ?_⟩
    rw [hpd, List.length_append, List.length_singleton]
    omega
  have hle := pairing_length_le_best (s.push c).data ((s.push c).data.length - 1) 0
    ((s.push c).data.length - 1) P (by omega) hv' hr'
  omega

/-- Witness for claim C7, at the concrete prefix "GC" extended by 'A'. -/
theorem claim7_witness :
    maxRNAFoldingScore "GC" = some 1 ∧
    maxRNAFoldingScore ("GC".push 'A') = some 1 ∧ (1 : Nat) ≤ 1 :=
  ⟨by rfl, by rfl, claim7_push_mono "GC" 'A' (by decide) (by decide) 1 1 (by rfl) (by rfl)⟩

/-- Claim C8: the score is not invariant under permutation of the symbols:
"AUGC" and "AGUC" carry the same multiset of symbols, but the first scores 2
(A-U at (0,1) nested-free with G-C at (2,3)) while the second scores only 1
(its two candidate pairings A-U at (0,2) and G-C at (1,3) cross). -/
theorem claim8_permutation :
    ("AUGC".data).Perm ("AGUC".data) ∧
    maxRNAFoldingScore "AUGC" = some 2 ∧
    maxRNAFoldingScore "AGUC" = some 1 ∧
    maxRNAFoldingScore "AUGC" ≠ maxRNAFoldingScore "AGUC" :=
  ⟨by decide, by rfl, by rfl, by decide⟩

/-- Claim C9: the computation is pure — calling the scorer twice on the same
input yields the same result, and an invocation leaves every ambient state
unchanged (the source touches only its local `dp` table and helper). -/
theorem claim9_pure (σ : Type) (w : σ) (s : String) :
    (foldingScorerCall w s).1 = (foldingScorerCall (foldingScorerCall w s).2 s).1 ∧
    (foldingScorerCall w s).2 = w :=
  ⟨rfl, rfl⟩

/-- Witness for claim C9, at a concrete state and input. -/
theorem claim9_witness :
    (foldingScorerCall (0 : Nat) "GCAU").1 =
      (foldingScorerCall (foldingScorerCall (0 : Nat) "GCAU").2 "GCAU").1 ∧
    (foldingScorerCall (0 : Nat) "GCAU").2 = 0 :=
  claim9_pure Nat 0 "GCAU"

/-- Claim C10: the source silently accepts arbitrary characters — every
nonempty input returns a score without error, a character outside the
uppercase alphabet {A, U, G, C} can never participate in a pairing
(`can_pair` is false on every pair involving it), "AXU" returns 1 and
"auau" returns 0. -/
theorem claim10_no_validation :
    (∀ s : String, s.data ≠ [] → ∃ m, maxRNAFoldingScore s = some m) ∧
    (∀ x y : Char, x ∉ (['A', 'U', 'G', 'C'] : List Char) →
      can_pair x y = false ∧ can_pair y x = false) ∧
    maxRNAFoldingScore "AXU" = some 1 ∧
    maxRNAFoldingScore "auau" = some 0 := by
  refine ⟨?_, ?_, by rfl, by rfl⟩
  · intro s hne
    have hn : s.data.length ≠ 0 := fun h => hne (List.length_eq_zero.mp h)
    exact ⟨_, maxRNAFoldingScore_eq_some hn⟩
  · intro x y hx
    exact can_pair_false_of_not_mem hx y

/-- Witness for claim C10, at the concrete inputs "AB" and the pair X/A. -/
theorem claim10_witness :
    (∃ m, maxRNAFoldingScore "AB" = some m) ∧
    can_pair 'X' 'A' = false ∧ can_pair 'A' 'X' = false :=
  ⟨claim10_no_validation.1 "AB" (by decide),
    claim10_no_validation.2.1 'X' 'A' (by decide)⟩

end RnaScore
